import Mathlib

/-!
Verification of the UnsplashRandDownloader manager
(`unsplash_rand_downloader/_downloader.py`).

The Python class `UnsplashRandDownloader` keeps a pool of downloaded
images (a dict from topic to list of image dicts), derived counters
`num_images` and `num_images_topic`, a per-path lock table, an hourly
API request counter, and a background thread handle.  This file embeds
the pool / counter / rate / thread logic as pure Lean functions.
Effects (the filesystem, the network, `random.choice` and
`random.randint`, pickling) are passed in as explicit oracle arguments:
a `Bool` for an operation that can fail, a `Nat` pick for a random
choice, an `Option` payload for data that arrives from outside.
-/

namespace UnsplashRandDownloader

/-- Image record as stored in the pool: the dict
`{raw, attribution, id, file_path}` built in `download_image` and
completed in `manage`.  Raw bytes are modelled as a list of byte
values. -/
structure Image where
  id : String
  attribution : String
  file_path : String
  raw : List Nat
deriving DecidableEq

/-- Payload built by `download_image` before `manage` assigns the
`file_path` key. -/
structure DlImage where
  id : String
  attribution : String
  raw : List Nat
deriving DecidableEq

/-- Pickled form of the `self.images` dict: an insertion-ordered
association list (a Python dict never repeats a key). -/
abbrev Snapshot := List (String × List Image)

/-- State of the downloader manager: the fields of
`UnsplashRandDownloader` that the pool, counter and session logic
touch.  The dict `self.images` is modelled as its key list
`image_keys` (insertion order) together with a total lookup function
`images` that returns `[]` for an absent key.  Counters are `Int`
because Python integers are signed.  `max_images_per_hour` is a `Rat`
because Python computes it with true division. -/
@[ext]
structure DState where
  setup_done : Bool
  topics : List String
  image_keys : List String
  images : String → List Image
  num_images : Int
  num_images_topic : String → Int
  file_locks : List String
  max_images_per_hour : Rat
  images_dir : String

/-- Model of `random.choice(l)` where the oracle `pick` selects the
index; `none` models the exception raised on an empty sequence. -/
def listChoice {α : Type} (l : List α) (pick : Nat) : Option α :=
  if h : l.length = 0 then none
  else some (l.get ⟨pick % l.length, Nat.mod_lt _ (Nat.pos_of_ne_zero h)⟩)

/-- Lookup in the association-list image dict; absent key yields `[]`. -/
def dlookup (d : Snapshot) (t : String) : List Image :=
  match d.find? (fun p => p.1 == t) with
  | some p => p.2
  | none => []

/-- Dict-key insertion: add an element only when it is not present
(the `if topic not in ...` pattern of the source). -/
def insertAbsent {α : Type} [DecidableEq α] (acc : List α) (x : α) : List α :=
  if x ∈ acc then acc else acc ++ [x]

/-- Lock-table entry creation, `self.file_locks[path] = Lock()`: the
key set gains `path` when absent (we track only the key set). -/
def addPathLock (locks : List String) (p : String) : List String :=
  insertAbsent locks p

/-- Lock entries created for every image of one topic list. -/
def addImageLocks (locks : List String) (imgs : List Image) : List String :=
  imgs.foldl (fun a img => addPathLock a img.file_path) locks

/-- Lock entries created by iterating a list of dict keys, adding the
locks of every image stored under each key. -/
def addKeyLocks (d : Snapshot) (locks : List String) (ks : List String) : List String :=
  ks.foldl (fun acc k => addImageLocks acc (dlookup d k)) locks

/-- Lock entries created by the restore loop: for every dict key, for
every image under it. -/
def addSessionLocks (locks : List String) (d : Snapshot) : List String :=
  addKeyLocks d locks (d.map Prod.fst)

/-- Embedding of `restore_images_data_session`.  The oracle `loaded`
is `none` when the session file is missing or unpickling fails (the
method returns early leaving the state untouched); otherwise it holds
the unpickled dict.  On success the method replaces `self.images`,
rebuilds `self.topics` from the dict keys, recomputes both counters
from scratch and creates a lock per stored file path. -/
def restore_images_data_session (s : DState) (loaded : Option Snapshot) : DState :=
  match loaded with
  | none => s
  | some data =>
    let imgs : String → List Image := fun t => dlookup data t
    let keys : List String := data.map Prod.fst
    { s with
      images := imgs
      image_keys := keys
      topics := keys.foldl insertAbsent []
      num_images := ((keys.map (fun k => (imgs k).length)).sum : Int)
      num_images_topic := fun t => if t ∈ keys then ((imgs t).length : Int) else 0
      file_locks := addSessionLocks s.file_locks data }

/-- State of `UnsplashRandDownloader.__init__`: empty pool, zero
counters, no thread.  `max_images_per_hour` is
`max_api_requests_per_hour / REQUESTS_PER_IMAGE_DOWNLOAD` computed by
true division. -/
def initialState (max_api_requests_per_hour : Nat) : DState :=
  { setup_done := false
    topics := []
    image_keys := []
    images := fun _ => []
    num_images := 0
    num_images_topic := fun _ => 0
    file_locks := []
    max_images_per_hour := (max_api_requests_per_hour : Rat) / 2
    images_dir := "" }

/-- Embedding of `setup`: store directory and topics, optionally lower
the pool cap to `max_num_images`, clear the image dict and insert an
empty list per topic (zeroing that topic entry of
`num_images_topic` — entries of dropped topics and `num_images` are
left untouched), then attempt a session restore and mark setup done. -/
def setup (s : DState) (images_download_dir : String) (topics : List String)
    (max_num_images : Nat) (loaded : Option Snapshot) : DState :=
  let s1 : DState :=
    { s with
      images_dir := images_download_dir
      topics := topics
      max_images_per_hour :=
        if max_num_images ≠ 0 ∧ (max_num_images : Rat) < s.max_images_per_hour then
          (max_num_images : Rat)
        else s.max_images_per_hour
      images := fun _ => []
      image_keys := topics.foldl insertAbsent []
      num_images_topic := fun t => if t ∈ topics then 0 else s.num_images_topic t }
  let s2 := restore_images_data_session s1 loaded
  { s2 with setup_done := true }

/-- Topics that currently hold at least one image
(`topics_with_any_image` in `get_random_image`). -/
def topicsWithAnyImage (s : DState) : List String :=
  s.topics.filter (fun t => 0 < (s.images t).length)

/-- Record returned by `get_random_image` on success. -/
structure ImageData where
  attribution : String
  id : String
  image : List Nat
  topic : String
deriving DecidableEq

/-- State after the in-memory removal of `image` from `topic`: the
`self.images[topic].remove(image)` call followed by the decrement of
`num_images` and of that topic entry of `num_images_topic`.  This
exact mutation appears twice in the source: in the eviction branch of
`manage` and in the self-healing branch of `get_random_image`. -/
def removeImageState (s : DState) (topic : String) (image : Image) : DState :=
  { s with
    images := fun t => if t = topic then (s.images topic).erase image else s.images t
    num_images := s.num_images - 1
    num_images_topic := fun t =>
      if t = topic then s.num_images_topic topic - 1 else s.num_images_topic t }

/-- Embedding of `get_random_image`.  Oracles: `tPick` and `iPick`
drive the two `random.choice` calls, `readF` is the outcome of
`file_read` per path.  Returns the served record (or `none`) together
with the state after the call: on a read failure the selected image is
removed from its topic list and both counters are decremented. -/
def get_random_image (s : DState) (tPick iPick : Nat)
    (readF : String → Option (List Nat)) : Option ImageData × DState :=
  if s.setup_done = false then (none, s)
  else if s.num_images = 0 then (none, s)
  else
    match listChoice (topicsWithAnyImage s) tPick with
    | none => (none, s)
    | some random_topic =>
      match listChoice (s.images random_topic) iPick with
      | none => (none, s)
      | some random_image =>
        match readF random_image.file_path with
        | none =>
          (none, removeImageState s random_topic random_image)
        | some bytes =>
          (some { attribution := random_image.attribution
                  id := random_image.id
                  image := bytes
                  topic := random_topic }, s)

/-- First pass of `get_topic_more_num_images`: the running maximum
list length over the topics (`more_len`). -/
def moreLenMax (s : DState) : Nat :=
  s.topics.foldl (fun m topic => if m < (s.images topic).length then (s.images topic).length else m) 0

/-- Second pass of `get_topic_more_num_images`: every topic whose list
length equals `more_len`. -/
def more_num_images_topics (s : DState) : List String :=
  s.topics.filter (fun topic => (s.images topic).length == moreLenMax s)

/-- Embedding of `get_topic_more_num_images`: a random choice among
the topics tied at the maximum count. -/
def get_topic_more_num_images (s : DState) (pick : Nat) : Option String :=
  listChoice (more_num_images_topics s) pick

/-- Embedding of `get_topic_less_num_images`: scan the topics keeping
the last one whose count is less than or equal to the running minimum,
which starts at the pool cap; the sentinel result is the empty
string. -/
def get_topic_less_num_images (s : DState) : String :=
  (s.topics.foldl
    (fun acc topic =>
      if ((s.images topic).length : Rat) ≤ acc.2 then
        (topic, ((s.images topic).length : Rat))
      else acc)
    ("", s.max_images_per_hour)).1

/-- Eviction part of a `manage` cycle (the branch taken when
`num_images >= max_images_per_hour`): pick the topic with most images,
pick one of its images, delete its file (`removeOk` is the outcome of
`remove_image_file`); on any failure the cycle is abandoned (`none`)
with the state unchanged, otherwise the image is removed in memory and
the chosen topic is carried to the download part. -/
def evictPhase (s : DState) (mostPick evictPick : Nat) (removeOk : Bool) :
    Option (DState × String) :=
  match get_topic_more_num_images s mostPick with
  | none => none
  | some topic =>
    match listChoice (s.images topic) evictPick with
    | none => none
    | some image =>
      if removeOk = false then none
      else some (removeImageState s topic image, topic)

/-- State after storing a downloaded image in the pool: the image is
appended to its topic list, a lock entry is created for its path and
both counters are incremented. -/
def insertImageState (s : DState) (topic : String) (img : Image) : DState :=
  { s with
    images := fun t => if t = topic then s.images topic ++ [img] else s.images t
    file_locks := addPathLock s.file_locks img.file_path
    num_images := s.num_images + 1
    num_images_topic := fun t =>
      if t = topic then s.num_images_topic topic + 1 else s.num_images_topic t }

/-- Download-and-store part of a `manage` cycle.  The oracle `dl` is
the result of `download_image` (`none` on failure), `saveFileOk` the
outcome of `save_data_to_file`.  On success the file name is
`{topic}_{num_images_topic[topic]}.jpg` under the image directory and
the completed image record is stored in the pool. -/
def downloadPhase (s : DState) (topic : String) (dl : Option DlImage)
    (saveFileOk : Bool) : DState :=
  match dl with
  | none => s
  | some d =>
    let img_file_name : String := topic ++ "_" ++ toString (s.num_images_topic topic) ++ ".jpg"
    let fpath : String := s.images_dir ++ "/" ++ img_file_name
    if saveFileOk = false then s
    else
      insertImageState s topic
        { id := d.id, attribution := d.attribution, file_path := fpath, raw := d.raw }

/-- Pool part of one iteration of the `manage` loop (the code after
the rate and connection gates): evict when the pool has reached the
cap, otherwise choose a growth topic; skip the cycle on the empty
sentinel; then download and store one image for the chosen topic. -/
def manageCycle (s : DState) (mostPick evictPick : Nat) (removeOk : Bool)
    (dl : Option DlImage) (saveFileOk : Bool) : DState :=
  let step1 : Option (DState × String) :=
    if (s.num_images : Rat) ≥ s.max_images_per_hour then
      evictPhase s mostPick evictPick removeOk
    else some (s, get_topic_less_num_images s)
  match step1 with
  | none => s
  | some (s1, topic) =>
    if topic = "" then s1
    else downloadPhase s1 topic dl saveFileOk

/-- Dict pickled by `save_images_data_session`: the image dict with
its keys in insertion order. -/
def poolSnapshot (s : DState) : Snapshot :=
  s.image_keys.map (fun k => (k, s.images k))

/-- Embedding of `save_images_data_session`: on a successful
`pickle_save` the session store now holds the pool snapshot; on
failure the method only logs, returning `False`. -/
def save_images_data_session (s : DState) (pickleOk : Bool)
    (store : Option Snapshot) : Bool × Option Snapshot :=
  if pickleOk then (true, some (poolSnapshot s)) else (false, store)

/-!
Rate-limit fragment of the `manage` loop (lines 282-292) together with
the request charges made by `download_image` (lines 378-407).
-/

/-- Outcome of one `download_image` call, as far as the request
counter is concerned: the call charges one request after
`api.photo.random` succeeds and a second one after
`api.photo.download`; failing before the first charge charges
nothing, failing between the two charges exactly one. -/
inductive DlOutcome where
  | earlyFail
  | midFail
  | success
deriving DecidableEq

/-- Requests charged on the counter by one `download_image` call. -/
def dlCharge : DlOutcome → Nat
  | .earlyFail => 0
  | .midFail => 1
  | .success => 2

/-- Rate state: the request counter and the configured hourly limit. -/
structure RateState where
  api_requests_counter : Nat
  max_api_requests_per_hour : Nat
deriving DecidableEq

/-- Rate behaviour of one iteration of the `manage` loop: the gate
compares the counter to the limit with equality; while blocked, the
counter resets to zero once the hour has elapsed; when not blocked the
iteration may reach `download_image`, charging `dlCharge`.  Iterations
that stop before the download (connection failure, empty-sentinel
topic) are the `earlyFail` outcome, which charges nothing. -/
def rateCycle (s : RateState) (hourElapsed : Bool) (dl : DlOutcome) : RateState :=
  if s.api_requests_counter == s.max_api_requests_per_hour then
    if hourElapsed then { s with api_requests_counter := 0 } else s
  else
    { s with api_requests_counter := s.api_requests_counter + dlCharge dl }

/-!
Thread lifecycle: `start` (lines 244-259) and `stop` (lines 261-271).
-/

/-- Thread-lifecycle fields of the manager: whether `setup` ran,
whether `self.thread` holds a thread object (it starts as `None` and
is never reset to `None`), and the cooperative stop flag. -/
structure ThreadState where
  setup_done : Bool
  thread : Bool
  th_stop : Bool
deriving DecidableEq

/-- Embedding of `start`.  Oracles: `createOk` is whether the
`Thread(...)` constructor succeeds (on an exception there the `thread`
field keeps its old value), `startOk` whether `thread.start()`
succeeds (on an exception there the field has already been
assigned). -/
def start (s : ThreadState) (createOk startOk : Bool) :
    Bool × ThreadState :=
  if s.setup_done = false then (false, s)
  else if s.thread = true then (false, s)
  else if createOk = false then (false, s)
  else if startOk = false then (false, { s with thread := true, th_stop := false })
  else (true, { s with thread := true, th_stop := false })

/-- Embedding of `stop`: fails when no thread was ever created,
otherwise raises the stop flag, joins, and reports success.  The
`thread` field is left set. -/
def stop (s : ThreadState) : Bool × ThreadState :=
  if s.thread = false then (false, s)
  else (true, { s with th_stop := true })

/-- External thread-lifecycle calls. -/
inductive ThreadOp where
  | startOp (createOk startOk : Bool)
  | stopOp
deriving DecidableEq

/-- State reached after a sequence of `start` and `stop` calls. -/
def runThreadOps (s : ThreadState) : List ThreadOp → ThreadState
  | [] => s
  | .startOp c k :: ops => runThreadOps (start s c k).2 ops
  | .stopOp :: ops => runThreadOps (stop s).2 ops

/-!
Specification-side definitions and the reachability relation for the
pool invariant.
-/

/-- Generic form of the fold performed by `get_topic_less_num_images`. -/
def lessFold (count : String → Nat) (l : List String) (acc : String × Rat) : String × Rat :=
  l.foldl
    (fun acc topic =>
      if (count topic : Rat) ≤ acc.2 then (topic, (count topic : Rat)) else acc)
    acc

/-- Generic form of the first pass of `get_topic_more_num_images`. -/
def maxFold (count : String → Nat) (l : List String) (m : Nat) : Nat :=
  l.foldl (fun m t => if m < count t then count t else m) m

/-- Decides whether `t` attains the minimum count over `l`. -/
def isMinIn (count : String → Nat) (l : List String) (t : String) : Bool :=
  l.all (fun u => count t ≤ count u)

/-- Written from the specification text: the last topic in
left-to-right order whose count equals the minimum count, with the
empty string as the sentinel for an empty topic list. -/
def specLastMinTopic (l : List String) (count : String → Nat) : String :=
  ((l.filter (isMinIn count l)).getLast?).getD ""

/-- Claimed invariant of the derived counters: `num_images` equals
the summed sizes of the per-topic image sets, and each topic entry of
`num_images_topic` equals the size of that topic set. -/
def countersOk (s : DState) : Prop :=
  s.num_images = ((s.topics.map (fun t => (s.images t).length)).sum : Int) ∧
  ∀ t ∈ s.topics, s.num_images_topic t = ((s.images t).length : Int)

/-- Strengthened inductive invariant: the topic list carries no
duplicate (Python stores topics as dict keys), plus `countersOk`. -/
def InvPool (s : DState) : Prop :=
  s.topics.Nodup ∧ countersOk s

/-- Admissible unpickled session data: a Python dict never holds the
same key twice. -/
def SnapKeysOk : Option Snapshot → Prop
  | none => True
  | some d => (d.map Prod.fst).Nodup

/-- One observable mutation of the pool state: a session restore, one
pool cycle of the manage loop, or one external `get_random_image`
call. -/
inductive PoolStep : DState → DState → Prop
  | restore (s : DState) (loaded : Option Snapshot) (h : SnapKeysOk loaded) :
      PoolStep s (restore_images_data_session s loaded)
  | cycle (s : DState) (mostPick evictPick : Nat) (removeOk : Bool)
      (dl : Option DlImage) (saveFileOk : Bool) :
      PoolStep s (manageCycle s mostPick evictPick removeOk dl saveFileOk)
  | serve (s : DState) (tPick iPick : Nat) (readF : String → Option (List Nat)) :
      PoolStep s (get_random_image s tPick iPick readF).2

/-- States reachable from a configured state by any sequence of pool
mutations. -/
def PoolReachable (s0 s : DState) : Prop :=
  Relation.ReflTransGen PoolStep s0 s

/-!
Concrete states used to evaluate the definitions on explicit inputs.
-/

/-- Placeholder image with a given id and path. -/
def mkImage (i p : String) : Image :=
  { id := i, attribution := "ph " ++ i, file_path := p, raw := [] }

/-- Pool holding two images of topic x, at paths `d/x_0.jpg` and
`d/x_1.jpg`, with the pool cap already reached (cap 2). -/
def rotationState : DState :=
  { setup_done := true
    topics := ["x"]
    image_keys := ["x"]
    images := fun t => if t = "x" then [mkImage "a" "d/x_0.jpg", mkImage "b" "d/x_1.jpg"] else []
    num_images := 2
    num_images_topic := fun t => if t = "x" then 2 else 0
    file_locks := ["d/x_0.jpg", "d/x_1.jpg"]
    max_images_per_hour := 2
    images_dir := "d" }

/-- Freshly downloaded payload fed to the rotation cycle. -/
def rotationDl : DlImage :=
  { id := "c", attribution := "ph c", raw := [7] }

/-- Pool with counts a:0 and b:2 under the demo cap 25. -/
def lessDemoState : DState :=
  { setup_done := true
    topics := ["a", "b"]
    image_keys := ["a", "b"]
    images := fun t => if t = "b" then [mkImage "b0" "d/b_0.jpg", mkImage "b1" "d/b_1.jpg"] else []
    num_images := 2
    num_images_topic := fun t => if t = "b" then 2 else 0
    file_locks := ["d/b_0.jpg", "d/b_1.jpg"]
    max_images_per_hour := 25
    images_dir := "d" }

/-- Pool with counts a:3, b:3 and c:1. -/
def moreDemoState : DState :=
  { setup_done := true
    topics := ["a", "b", "c"]
    image_keys := ["a", "b", "c"]
    images := fun t =>
      if t = "a" then [mkImage "a0" "d/a_0.jpg", mkImage "a1" "d/a_1.jpg", mkImage "a2" "d/a_2.jpg"]
      else if t = "b" then [mkImage "b0" "d/b_0.jpg", mkImage "b1" "d/b_1.jpg", mkImage "b2" "d/b_2.jpg"]
      else if t = "c" then [mkImage "c0" "d/c_0.jpg"]
      else []
    num_images := 7
    num_images_topic := fun t => if t = "a" then 3 else if t = "b" then 3 else if t = "c" then 1 else 0
    file_locks := []
    max_images_per_hour := 25
    images_dir := "d" }

/-- Pool with a single image of topic x, used to exercise the serving
and eviction paths on explicit input. -/
def singleImageState : DState :=
  { setup_done := true
    topics := ["x"]
    image_keys := ["x"]
    images := fun t => if t = "x" then [mkImage "a" "d/x_0.jpg"] else []
    num_images := 1
    num_images_topic := fun t => if t = "x" then 1 else 0
    file_locks := ["d/x_0.jpg"]
    max_images_per_hour := 1
    images_dir := "d" }

/-- State whose stored counters disagree with the pool, used to show
that a session round trip recomputes them. -/
def staleCounterState : DState :=
  { setup_done := true
    topics := ["x"]
    image_keys := ["x"]
    images := fun t => if t = "x" then [mkImage "a" "d/x_0.jpg"] else []
    num_images := 5
    num_images_topic := fun _ => 9
    file_locks := []
    max_images_per_hour := 25
    images_dir := "d" }

/-- Thread state after a successful `start`. -/
def startedThreadState : ThreadState :=
  { setup_done := true, thread := true, th_stop := false }

/-!
Basic lemmas about the helper functions.
-/

theorem listChoice_mem {α : Type} {l : List α} {pick : Nat} {x : α}
    (h : listChoice l pick = some x) : x ∈ l := by
  unfold listChoice at h
  split at h
  · exact absurd h (by simp)
  · exact Option.some_injective _ h ▸ List.get_mem _ _ _

theorem listChoice_of_ne_nil {α : Type} {l : List α} (pick : Nat) (h : l ≠ []) :
    ∃ x, listChoice l pick = some x := by
  unfold listChoice
  split
  · exact absurd (List.length_eq_zero.mp (by assumption)) h
  · exact ⟨_, rfl⟩

theorem mem_insertAbsent {α : Type} [DecidableEq α] {acc : List α} {x q : α} :
    q ∈ insertAbsent acc x ↔ q ∈ acc ∨ q = x := by
  unfold insertAbsent
  split
  · constructor
    · exact Or.inl
    · rintro (h | rfl)
      · exact h
      · assumption
  · simp

theorem foldl_insertAbsent_of_disjoint {α : Type} [DecidableEq α] :
    ∀ (l acc : List α), l.Nodup → (∀ x ∈ l, x ∉ acc) →
      l.foldl insertAbsent acc = acc ++ l
  | [], acc, _, _ => by simp
  | x :: l, acc, hnd, hdisj => by
    have hx : x ∉ acc := hdisj x (by simp)
    have hstep : insertAbsent acc x = acc ++ [x] := by
      unfold insertAbsent
      exact if_neg hx
    have hnd' : l.Nodup := (List.nodup_cons.mp hnd).2
    have hxl : x ∉ l := (List.nodup_cons.mp hnd).1
    have hdisj' : ∀ y ∈ l, y ∉ acc ++ [x] := by
      intro y hy
      simp only [List.mem_append, List.mem_singleton]
      rintro (h | rfl)
      · exact hdisj y (by simp [hy]) h
      · exact hxl hy
    calc (x :: l).foldl insertAbsent acc
        = l.foldl insertAbsent (acc ++ [x]) := by rw [List.foldl_cons, hstep]
      _ = (acc ++ [x]) ++ l := foldl_insertAbsent_of_disjoint l (acc ++ [x]) hnd' hdisj'
      _ = acc ++ x :: l := by simp

theorem foldl_insertAbsent_nil {α : Type} [DecidableEq α] {l : List α}
    (h : l.Nodup) : l.foldl insertAbsent [] = l := by
  simpa using foldl_insertAbsent_of_disjoint l [] h (by simp)

theorem nodup_foldl_insertAbsent {α : Type} [DecidableEq α] :
    ∀ (l acc : List α), acc.Nodup → (l.foldl insertAbsent acc).Nodup
  | [], acc, h => h
  | x :: l, acc, h => by
    rw [List.foldl_cons]
    refine nodup_foldl_insertAbsent l _ ?_
    unfold insertAbsent
    split
    · exact h
    · simpa [List.nodup_append] using ⟨h, by assumption⟩

theorem mem_addPathLock_of_mem {L : List String} {p q : String} (h : q ∈ L) :
    q ∈ addPathLock L p := by
  unfold addPathLock
  exact mem_insertAbsent.mpr (Or.inl h)

theorem mem_addPathLock_self (L : List String) (p : String) :
    p ∈ addPathLock L p := by
  unfold addPathLock
  exact mem_insertAbsent.mpr (Or.inr rfl)

theorem addPathLock_eq_of_mem {L : List String} {p : String} (h : p ∈ L) :
    addPathLock L p = L := by
  unfold addPathLock insertAbsent
  exact if_pos h

theorem mem_addImageLocks_of_mem :
    ∀ (imgs : List Image) (L : List String) (q : String), q ∈ L → q ∈ addImageLocks L imgs
  | [], _, _, h => h
  | img :: imgs, L, q, h =>
    mem_addImageLocks_of_mem imgs _ q (mem_addPathLock_of_mem h)

theorem mem_addImageLocks_self :
    ∀ (imgs : List Image) (L : List String) (img : Image), img ∈ imgs →
      img.file_path ∈ addImageLocks L imgs
  | [], _, _, h => absurd h (by simp)
  | i :: imgs, L, img, h => by
    rcases List.mem_cons.mp h with rfl | h
    · exact mem_addImageLocks_of_mem imgs _ _ (mem_addPathLock_self L img.file_path)
    · exact mem_addImageLocks_self imgs _ img h

theorem addImageLocks_eq_of_subset :
    ∀ (imgs : List Image) (L : List String), (∀ i ∈ imgs, i.file_path ∈ L) →
      addImageLocks L imgs = L
  | [], _, _ => rfl
  | i :: imgs, L, h => by
    have h1 : addPathLock L i.file_path = L := addPathLock_eq_of_mem (h i (by simp))
    show addImageLocks (addPathLock L i.file_path) imgs = L
    rw [h1]
    exact addImageLocks_eq_of_subset imgs L (fun j hj => h j (by simp [hj]))

theorem mem_addKeyLocks_of_mem (d : Snapshot) :
    ∀ (ks : List String) (L : List String) (q : String), q ∈ L → q ∈ addKeyLocks d L ks
  | [], _, _, h => h
  | k :: ks, L, q, h =>
    mem_addKeyLocks_of_mem d ks _ q (mem_addImageLocks_of_mem _ _ q h)

theorem mem_addKeyLocks_self (d : Snapshot) :
    ∀ (ks : List String) (L : List String) (k : String) (img : Image),
      k ∈ ks → img ∈ dlookup d k → img.file_path ∈ addKeyLocks d L ks
  | [], _, _, _, hk, _ => absurd hk (by simp)
  | k0 :: ks, L, k, img, hk, himg => by
    rcases List.mem_cons.mp hk with rfl | hk
    · exact mem_addKeyLocks_of_mem d ks _ _ (mem_addImageLocks_self _ _ _ himg)
    · exact mem_addKeyLocks_self d ks _ k img hk himg

theorem addKeyLocks_eq_of_subset (d : Snapshot) :
    ∀ (ks : List String) (L : List String),
      (∀ k ∈ ks, ∀ i ∈ dlookup d k, i.file_path ∈ L) → addKeyLocks d L ks = L
  | [], _, _ => rfl
  | k :: ks, L, h => by
    have h1 : addImageLocks L (dlookup d k) = L :=
      addImageLocks_eq_of_subset _ L (h k (by simp))
    show addKeyLocks d (addImageLocks L (dlookup d k)) ks = L
    rw [h1]
    exact addKeyLocks_eq_of_subset d ks L (fun k2 hk2 => h k2 (by simp [hk2]))

theorem addSessionLocks_idem (L : List String) (d : Snapshot) :
    addSessionLocks (addSessionLocks L d) d = addSessionLocks L d := by
  unfold addSessionLocks
  exact addKeyLocks_eq_of_subset d _ _
    (fun k hk i hi => mem_addKeyLocks_self d _ L k i hk hi)

theorem dlookup_map_pairs (imagesF : String → List Image) :
    ∀ (keys : List String) (t : String),
      dlookup (keys.map (fun k => (k, imagesF k))) t =
        if t ∈ keys then imagesF t else []
  | [], t => by simp [dlookup]
  | k :: keys, t => by
    by_cases hkt : k = t
    · subst hkt
      simp [dlookup, List.find?]
    · have : (k == t) = false := by simp [hkt]
      simp only [List.map_cons, dlookup, List.find?, this]
      have ih := dlookup_map_pairs imagesF keys t
      unfold dlookup at ih
      rw [ih]
      by_cases htk : t ∈ keys
      · simp [htk, List.mem_cons]
      · simp [htk, List.mem_cons, Ne.symm hkt]

theorem sum_map_update {t : String} (g : Nat) (f : String → Nat) :
    ∀ (l : List String), l.Nodup → t ∈ l →
      ((l.map (fun u => if u = t then g else f u)).sum) + f t = (l.map f).sum + g
  | [], _, ht => absurd ht (by simp)
  | x :: l, hnd, ht => by
    rcases List.mem_cons.mp ht with rfl | ht
    · have hxl : t ∉ l := (List.nodup_cons.mp hnd).1
      have hmap : l.map (fun u => if u = t then g else f u) = l.map f :=
        List.map_congr_left (fun u hu => if_neg (fun h : u = t => hxl (h ▸ hu)))
      simp only [List.map_cons, List.sum_cons, hmap, if_true, eq_self_iff_true]
      omega
    · have hxt : ¬ x = t := by
        rintro rfl
        exact (List.nodup_cons.mp hnd).1 ht
      have ih := sum_map_update g f l (List.nodup_cons.mp hnd).2 ht
      simp only [List.map_cons, List.sum_cons, if_neg hxt]
      omega

/-!
Lemmas about the two topic-selection folds.
-/

theorem le_maxFold (count : String → Nat) :
    ∀ (l : List String) (m : Nat), m ≤ maxFold count l m
  | [], m => le_refl m
  | t :: l, m => by
    show m ≤ maxFold count l (if m < count t then count t else m)
    have h1 : m ≤ (if m < count t then count t else m) := by split <;> omega
    exact h1.trans (le_maxFold count l _)

theorem count_le_maxFold (count : String → Nat) :
    ∀ (l : List String) (m : Nat) (t : String), t ∈ l → count t ≤ maxFold count l m
  | [], _, _, ht => absurd ht (by simp)
  | u :: l, m, t, ht => by
    rcases List.mem_cons.mp ht with rfl | ht
    · show count t ≤ maxFold count l (if m < count t then count t else m)
      have h1 : count t ≤ (if m < count t then count t else m) := by split <;> omega
      exact h1.trans (le_maxFold count l _)
    · exact count_le_maxFold count l _ t ht

theorem maxFold_eq_init_or_mem (count : String → Nat) :
    ∀ (l : List String) (m : Nat),
      maxFold count l m = m ∨ ∃ t ∈ l, maxFold count l m = count t
  | [], _ => Or.inl rfl
  | u :: l, m => by
    have hstep : maxFold count (u :: l) m =
        maxFold count l (if m < count u then count u else m) := rfl
    rcases maxFold_eq_init_or_mem count l (if m < count u then count u else m)
      with h | ⟨t, ht, h⟩
    · by_cases hc : m < count u
      · refine Or.inr ⟨u, by simp, ?_⟩
        rw [hstep, h, if_pos hc]
      · refine Or.inl ?_
        rw [hstep, h, if_neg hc]
    · exact Or.inr ⟨t, by simp [ht], by rw [hstep, h]⟩

theorem lessFold_fst_eq_or_mem (count : String → Nat) :
    ∀ (l : List String) (acc : String × Rat),
      (lessFold count l acc).1 = acc.1 ∨ (lessFold count l acc).1 ∈ l
  | [], _ => Or.inl rfl
  | t :: l, acc => by
    have hstep : lessFold count (t :: l) acc =
        lessFold count l (if (count t : Rat) ≤ acc.2 then (t, (count t : Rat)) else acc) := rfl
    rcases lessFold_fst_eq_or_mem count l
      (if (count t : Rat) ≤ acc.2 then (t, (count t : Rat)) else acc) with h | h
    · rw [hstep, h]
      by_cases hc : (count t : Rat) ≤ acc.2
      · rw [if_pos hc]
        exact Or.inr (by simp)
      · rw [if_neg hc]
        exact Or.inl rfl
    · rw [hstep]
      exact Or.inr (by simp [h])

theorem lessFold_append_singleton (count : String → Nat) (l : List String)
    (t : String) (acc : String × Rat) :
    lessFold count (l ++ [t]) acc =
      (if (count t : Rat) ≤ (lessFold count l acc).2
       then (t, (count t : Rat)) else lessFold count l acc) := by
  unfold lessFold
  rw [List.foldl_append]
  rfl

theorem lessFold_spec (count : String → Nat) (cap : Rat) (l : List String)
    (hcap : ∀ t ∈ l, (count t : Rat) ≤ cap) :
    lessFold count l ("", cap) =
      match (l.filter (isMinIn count l)).getLast? with
      | some w => (w, (count w : Rat))
      | none => ("", cap) := by
  induction l using List.reverseRecOn with
  | nil => simp [lessFold]
  | append_singleton l t ih =>
    have hcapl : ∀ u ∈ l, (count u : Rat) ≤ cap := fun u hu => hcap u (by simp [hu])
    have hl := ih hcapl
    rw [lessFold_append_singleton]
    rcases eq_or_ne l [] with rfl | hne
    · have ht : isMinIn count [t] t = true := by simp [isMinIn]
      simp [lessFold, isMinIn, hcap t (by simp)]
    · -- the nonempty prefix has a last minimum w
      obtain ⟨w0, hw0⟩ : ∃ w0, w0 ∈ l.argmin count := by
        cases harg : l.argmin count with
        | none => exact absurd (List.argmin_eq_none.mp harg) hne
        | some v => exact ⟨v, Option.mem_some_iff.mpr rfl⟩
      have hw0mem : w0 ∈ l := List.argmin_mem hw0
      have hw0min : ∀ u ∈ l, count w0 ≤ count u := fun u hu =>
        List.le_of_mem_argmin hu hw0
      have hw0f : isMinIn count l w0 = true := by
        simp only [isMinIn, List.all_eq_true, decide_eq_true_eq]
        exact hw0min
      have hfilne : l.filter (isMinIn count l) ≠ [] := by
        intro hnil
        exact (List.mem_nil_iff w0).mp (hnil ▸ List.mem_filter.mpr ⟨hw0mem, hw0f⟩)
      obtain ⟨w, hw⟩ : ∃ w, (l.filter (isMinIn count l)).getLast? = some w := by
        cases hg : (l.filter (isMinIn count l)).getLast? with
        | none => exact absurd (List.getLast?_eq_none_iff.mp hg) hfilne
        | some v => exact ⟨v, rfl⟩
      have hwfil : w ∈ l.filter (isMinIn count l) := by
        obtain ⟨hne2, rfl⟩ := List.mem_getLast?_eq_getLast hw
        exact List.getLast_mem hne2
      have hwmem : w ∈ l := (List.mem_filter.mp hwfil).1
      have hwmin : ∀ u ∈ l, count w ≤ count u := by
        have := (List.mem_filter.mp hwfil).2
        simpa only [isMinIn, List.all_eq_true, decide_eq_true_eq] using this
      rw [hw] at hl
      rw [hl]
      simp only
      by_cases hcmp : (count t : Rat) ≤ (count w : Rat)
      · -- t becomes the new last minimum
        have hcmpn : count t ≤ count w := by exact_mod_cast hcmp
        have htmin : ∀ u ∈ l ++ [t], count t ≤ count u := by
          intro u hu
          rcases List.mem_append.mp hu with hu | hu
          · exact hcmpn.trans (hwmin u hu)
          · rw [List.mem_singleton.mp hu]
        have htf : isMinIn count (l ++ [t]) t = true := by
          simp only [isMinIn, List.all_eq_true, decide_eq_true_eq]
          exact htmin
        have : (l ++ [t]).filter (isMinIn count (l ++ [t])) =
            l.filter (isMinIn count (l ++ [t])) ++ [t] := by
          rw [List.filter_append]
          simp [htf]
        rw [if_pos hcmp, this, List.getLast?_concat]
      · -- the old last minimum w stays
        have hcmpn : count w < count t := by
          have : ¬ ((count t : Nat) : Rat) ≤ ((count w : Nat) : Rat) := hcmp
          rw [Nat.cast_le] at this
          omega
        have hpred : ∀ u ∈ l, isMinIn count (l ++ [t]) u = isMinIn count l u := by
          intro u _
          rw [Bool.eq_iff_iff]
          simp only [isMinIn, List.all_eq_true, decide_eq_true_eq, List.mem_append,
            List.mem_singleton]
          constructor
          · intro h v hv
            exact h v (Or.inl hv)
          · rintro h v (hv | rfl)
            · exact h v hv
            · have h1 := h w0 hw0mem
              have h2 := hw0min w hwmem
              omega
        have htf : isMinIn count (l ++ [t]) t = false := by
          rw [Bool.eq_false_iff]
          intro hall
          rw [isMinIn, List.all_eq_true] at hall
          have hwt := hall w (by simp [hwmem])
          rw [decide_eq_true_eq] at hwt
          omega
        have : (l ++ [t]).filter (isMinIn count (l ++ [t])) =
            l.filter (isMinIn count l) := by
          rw [List.filter_append, List.filter_congr hpred]
          simp [htf]
        rw [if_neg hcmp, this, hw]

/-!
Claim theorems.
-/

/-- C1: the claim states that the request counter never exceeds
`max_api_requests_per_hour` right after a charge, for every configured
limit including odd values, the loop blocking instead of charging.
The code gates the loop with an equality test, so with the custom
limit 3 two successful downloads (each charging two requests) drive
the counter from 0 to 4, beyond the limit, without ever blocking. -/
theorem rate_counter_exceeds_limit :
    (rateCycle (rateCycle ⟨0, 3⟩ false .success) false .success).api_requests_counter = 4 ∧
    ¬ ((rateCycle (rateCycle ⟨0, 3⟩ false .success) false .success).api_requests_counter ≤
        (rateCycle (rateCycle ⟨0, 3⟩ false .success) false .success).max_api_requests_per_hour) := by
  decide

/-- C2: the claim states that `file_path` stays unique across the pool
after an evict-then-store cycle.  Evaluating one `manage` cycle on a
pool holding x_0.jpg and x_1.jpg at cap 2: the uniform choice evicts
x_0.jpg, the per-topic count drops to 1, and the new image is stored
at x_1.jpg — leaving two pool records with the same `file_path`. -/
theorem duplicate_file_path_after_rotation :
    ((rotationState.images "x").map (fun i => i.file_path)).Nodup ∧
    ((manageCycle rotationState 0 0 true (some rotationDl) true).images "x").map
        (fun i => i.file_path) = ["d/x_1.jpg", "d/x_1.jpg"] ∧
    ¬ (((manageCycle rotationState 0 0 true (some rotationDl) true).images "x").map
        (fun i => i.file_path)).Nodup := by
  decide

/-- C4: under the hypothesis that every per-topic count is at most the
pool cap, `get_topic_less_num_images` returns exactly the last topic
in left-to-right order whose count attains the minimum, and the empty
string on an empty topic list. -/
theorem less_topic_is_last_minimum (s : DState)
    (hcap : ∀ t ∈ s.topics, ((s.images t).length : Rat) ≤ s.max_images_per_hour) :
    get_topic_less_num_images s =
      specLastMinTopic s.topics (fun t => (s.images t).length) := by
  have h1 : get_topic_less_num_images s =
      (lessFold (fun t => (s.images t).length) s.topics ("", s.max_images_per_hour)).1 := rfl
  rw [h1, lessFold_spec _ _ _ hcap]
  unfold specLastMinTopic
  cases hg : (s.topics.filter (isMinIn (fun t => (s.images t).length) s.topics)).getLast? with
  | none => rfl
  | some w => rfl

/-- Witness for C4 at the counts a:0, b:2 of the specification: the
returned topic is a. -/
theorem less_topic_is_last_minimum_witness :
    get_topic_less_num_images lessDemoState = "a" := by
  rw [less_topic_is_last_minimum lessDemoState (by decide)]
  decide

/-- Every non-empty topic list has a member attaining the maximum
count. -/
theorem exists_list_argmax (count : String → Nat) (l : List String) (hne : l ≠ []) :
    ∃ w ∈ l, ∀ u ∈ l, count u ≤ count w := by
  cases harg : l.argmax count with
  | none => exact absurd (List.argmax_eq_none.mp harg) hne
  | some v =>
    have hv : v ∈ l.argmax count := by
      rw [harg]
      exact Option.mem_some_iff.mpr rfl
    exact ⟨v, List.argmax_mem hv, fun u hu => List.le_of_mem_argmax hu hv⟩

/-- C5: on a non-empty topic list, whatever the random tie-break pick,
`get_topic_more_num_images` returns a topic whose count equals the
maximum count over all topics. -/
theorem more_topic_has_maximum_count (s : DState) (pick : Nat)
    (hne : s.topics ≠ []) :
    ∃ t, get_topic_more_num_images s pick = some t ∧ t ∈ s.topics ∧
      ∀ u ∈ s.topics, (s.images u).length ≤ (s.images t).length := by
  obtain ⟨w, hwmem, hwmax⟩ :=
    exists_list_argmax (fun t => (s.images t).length) s.topics hne
  have hfold : moreLenMax s = maxFold (fun t => (s.images t).length) s.topics 0 := rfl
  have hle : (s.images w).length ≤ maxFold (fun t => (s.images t).length) s.topics 0 :=
    count_le_maxFold (fun t => (s.images t).length) s.topics 0 w hwmem
  have hmax : moreLenMax s = (s.images w).length := by
    rcases maxFold_eq_init_or_mem (fun t => (s.images t).length) s.topics 0
      with h | ⟨u, hu, h⟩
    · rw [hfold, h]
      rw [h] at hle
      omega
    · rw [hfold, h]
      have h2 := hwmax u hu
      rw [h] at hle
      omega
  have hwcand : w ∈ more_num_images_topics s := by
    unfold more_num_images_topics
    refine List.mem_filter.mpr ⟨hwmem, ?_⟩
    simp [hmax]
  have hcand_ne : more_num_images_topics s ≠ [] := by
    intro hnil
    rw [hnil] at hwcand
    exact absurd hwcand (by simp)
  obtain ⟨t, ht⟩ := listChoice_of_ne_nil pick hcand_ne
  have htcand := listChoice_mem ht
  have htmem : t ∈ s.topics := (List.mem_filter.mp htcand).1
  have htlen : (s.images t).length = moreLenMax s := by
    have h3 := (List.mem_filter.mp htcand).2
    simpa using h3
  refine ⟨t, ht, htmem, fun u hu => ?_⟩
  rw [htlen, hmax]
  exact hwmax u hu

/-- Witness for C5 at the counts a:3, b:3, c:1 of the specification:
the selected topic has the maximum count 3 (so it is never c). -/
theorem more_topic_has_maximum_count_witness :
    ∃ t, get_topic_more_num_images moreDemoState 0 = some t ∧ t ∈ moreDemoState.topics ∧
      ∀ u ∈ moreDemoState.topics,
        (moreDemoState.images u).length ≤ (moreDemoState.images t).length :=
  more_topic_has_maximum_count moreDemoState 0 (by decide)

theorem start_of_thread_set {s : ThreadState} (h : s.thread = true) (c k : Bool) :
    start s c k = (false, s) := by
  unfold start
  rw [h]
  simp

theorem thread_stays_set :
    ∀ (ops : List ThreadOp) (s : ThreadState), s.thread = true →
      (runThreadOps s ops).thread = true
  | [], _, h => h
  | .startOp c k :: ops, s, h => by
    show (runThreadOps (start s c k).2 ops).thread = true
    rw [start_of_thread_set h]
    exact thread_stays_set ops s h
  | .stopOp :: ops, s, h => by
    show (runThreadOps (stop s).2 ops).thread = true
    have hstop : (stop s).2 = { s with th_stop := true } := by
      unfold stop
      rw [h]
      simp
    rw [hstop]
    exact thread_stays_set ops { s with th_stop := true } h

/-- C10: `start` before `setup` fails; a successful `start` leaves the
thread reference set; and once the reference is set, it stays set
through every later `start` and `stop` call — `stop` never clears
it — so every later `start` returns `False` and the manager cannot be
restarted. -/
theorem start_never_succeeds_twice :
    (∀ (s : ThreadState) (c k : Bool), s.setup_done = false → start s c k = (false, s)) ∧
    (∀ (s : ThreadState) (c k : Bool), (start s c k).1 = true → (start s c k).2.thread = true) ∧
    (∀ (s : ThreadState) (ops : List ThreadOp), s.thread = true →
      (runThreadOps s ops).thread = true ∧
      ∀ c k, (start (runThreadOps s ops) c k).1 = false) := by
  refine ⟨?_, ?_, ?_⟩
  · intro s c k h
    unfold start
    rw [h]
    simp
  · intro s c k h
    unfold start at h ⊢
    split at h
    · exact absurd h (by simp)
    · split at h
      · exact absurd h (by simp)
      · split at h
        · exact absurd h (by simp)
        · split at h <;> simp_all
  · intro s ops h
    have hset := thread_stays_set ops s h
    refine ⟨hset, fun c k => ?_⟩
    rw [start_of_thread_set hset]

/-- Witness for C10: starting from a started manager, after a
successful `stop` and another `start` attempt the thread reference is
still set and a further `start` with both thread operations succeeding
still returns `False`. -/
theorem start_never_succeeds_twice_witness :
    (runThreadOps startedThreadState [ThreadOp.stopOp, ThreadOp.startOp true true]).thread = true ∧
    (start (runThreadOps startedThreadState [ThreadOp.stopOp, ThreadOp.startOp true true])
        true true).1 = false := by
  have h := start_never_succeeds_twice.2.2 startedThreadState
    [ThreadOp.stopOp, ThreadOp.startOp true true] rfl
  exact ⟨h.1, h.2 true true⟩

/-- C9: loading the session file twice in a row, with no intervening
mutation (the second load sees the same file content), produces
exactly the state of a single load: every overwritten field depends
only on the loaded data, and the lock table gains no new key the
second time. -/
theorem session_restore_idempotent (s : DState) (loaded : Option Snapshot) :
    restore_images_data_session (restore_images_data_session s loaded) loaded =
      restore_images_data_session s loaded := by
  cases loaded with
  | none => rfl
  | some data =>
    show DState.mk _ _ _ _ _ _ _ _ _ = DState.mk _ _ _ _ _ _ _ _ _
    apply DState.ext <;> try rfl
    exact addSessionLocks_idem s.file_locks data

theorem poolSnapshot_keys (s : DState) :
    (poolSnapshot s).map Prod.fst = s.image_keys := by
  unfold poolSnapshot
  rw [List.map_map]
  exact List.map_id s.image_keys

theorem dlookup_poolSnapshot (s : DState) (t : String) :
    dlookup (poolSnapshot s) t = if t ∈ s.image_keys then s.images t else [] :=
  dlookup_map_pairs s.images s.image_keys t

/-- C8: saving the session snapshot and loading it back reproduces the
pool exactly (every topic list unchanged), rebuilds the topic list as
the dict keys, and recomputes both derived counters to match the
actual per-topic sizes. -/
theorem session_round_trip (s : DState) (store : Option Snapshot)
    (hk : s.image_keys.Nodup) (hsupp : ∀ t, t ∉ s.image_keys → s.images t = []) :
    (∀ t, (restore_images_data_session s (save_images_data_session s true store).2).images t
        = s.images t) ∧
    (restore_images_data_session s (save_images_data_session s true store).2).topics
        = s.image_keys ∧
    (restore_images_data_session s (save_images_data_session s true store).2).num_images
        = ((s.image_keys.map (fun t => (s.images t).length)).sum : Int) ∧
    (∀ t ∈ s.image_keys,
      (restore_images_data_session s (save_images_data_session s true store).2).num_images_topic t
        = ((s.images t).length : Int)) := by
  have hsave : (save_images_data_session s true store).2 = some (poolSnapshot s) := rfl
  rw [hsave]
  refine ⟨?_, ?_, ?_, ?_⟩
  · intro t
    show dlookup (poolSnapshot s) t = s.images t
    rw [dlookup_poolSnapshot]
    by_cases ht : t ∈ s.image_keys
    · rw [if_pos ht]
    · rw [if_neg ht, hsupp t ht]
  · show ((poolSnapshot s).map Prod.fst).foldl insertAbsent [] = s.image_keys
    rw [poolSnapshot_keys]
    exact foldl_insertAbsent_nil hk
  · show ((((poolSnapshot s).map Prod.fst).map
        (fun k => (dlookup (poolSnapshot s) k).length)).sum : Int) = _
    rw [poolSnapshot_keys]
    congr 1
    apply congrArg
    apply List.map_congr_left
    intro k hkmem
    rw [dlookup_poolSnapshot, if_pos hkmem]
  · intro t ht
    show (if t ∈ (poolSnapshot s).map Prod.fst
        then ((dlookup (poolSnapshot s) t).length : Int) else 0) = _
    rw [poolSnapshot_keys, if_pos ht, dlookup_poolSnapshot, if_pos ht]

/-- Witness for C8: a pool whose stored counters are wrong (5 and 9
for a single image of topic x) comes back from the round trip with the
pool intact and the counters recomputed to 1. -/
theorem session_round_trip_witness :
    (restore_images_data_session staleCounterState
        (save_images_data_session staleCounterState true none).2).topics = ["x"] ∧
    (restore_images_data_session staleCounterState
        (save_images_data_session staleCounterState true none).2).num_images = 1 ∧
    (restore_images_data_session staleCounterState
        (save_images_data_session staleCounterState true none).2).num_images_topic "x" = 1 := by
  have hsupp : ∀ t, t ∉ staleCounterState.image_keys → staleCounterState.images t = [] := by
    intro t ht
    have hne : ¬ t = "x" := by simpa [staleCounterState] using ht
    simp [staleCounterState, hne]
  have h := session_round_trip staleCounterState none (by decide) hsupp
  refine ⟨h.2.1, ?_, ?_⟩
  · rw [h.2.2.1]
    decide
  · rw [h.2.2.2 "x" (by decide)]
    decide

theorem evictPhase_removeOk_false (s : DState) (mostPick evictPick : Nat) :
    evictPhase s mostPick evictPick false = none := by
  unfold evictPhase
  split
  · rfl
  · split
    · rfl
    · simp

/-- C7: in an eviction cycle (pool at or above the cap), a failed file
deletion aborts the whole cycle with the state unchanged and no
download attempted (the result does not depend on the download
oracle); a successful deletion removes exactly the chosen image from
the chosen topic, leaving all other topic lists and counter entries
untouched and decrementing `num_images` and that topic entry by
exactly one. -/
theorem eviction_cycle_consistency (s : DState) (mostPick evictPick : Nat)
    (hcap : (s.num_images : Rat) ≥ s.max_images_per_hour) :
    (∀ (dl : Option DlImage) (saveFileOk : Bool),
      manageCycle s mostPick evictPick false dl saveFileOk = s) ∧
    (∀ (topic : String) (image : Image),
      get_topic_more_num_images s mostPick = some topic →
      listChoice (s.images topic) evictPick = some image →
      evictPhase s mostPick evictPick true = some (removeImageState s topic image, topic) ∧
      ((removeImageState s topic image).images topic).length + 1 = (s.images topic).length ∧
      ((removeImageState s topic image).images topic).count image + 1
          = (s.images topic).count image ∧
      (∀ im ≠ image, ((removeImageState s topic image).images topic).count im
          = (s.images topic).count im) ∧
      (∀ t ≠ topic, (removeImageState s topic image).images t = s.images t) ∧
      (removeImageState s topic image).num_images = s.num_images - 1 ∧
      (removeImageState s topic image).num_images_topic topic
          = s.num_images_topic topic - 1 ∧
      (∀ t ≠ topic, (removeImageState s topic image).num_images_topic t
          = s.num_images_topic t)) := by
  constructor
  · intro dl saveFileOk
    unfold manageCycle
    rw [if_pos hcap, evictPhase_removeOk_false]
  · intro topic image htopic himage
    have himem : image ∈ s.images topic := listChoice_mem himage
    have hcount : 0 < (s.images topic).count image := List.count_pos_iff.mpr himem
    have hlen : 0 < (s.images topic).length := List.length_pos.mpr
      (fun hnil => by rw [hnil] at himem; exact absurd himem (by simp))
    refine ⟨?_, ?_, ?_, ?_, ?_, rfl, ?_, ?_⟩
    · unfold evictPhase
      simp only [htopic, himage]
      simp
    · have : ((s.images topic).erase image).length = (s.images topic).length - 1 :=
        List.length_erase_of_mem himem
      simp only [removeImageState, eq_self_iff_true, if_true]
      rw [this]
      omega
    · have : ((s.images topic).erase image).count image
          = (s.images topic).count image - 1 := List.count_erase_self image (s.images topic)
      simp only [removeImageState, eq_self_iff_true, if_true]
      rw [this]
      omega
    · intro im him
      simp only [removeImageState, eq_self_iff_true, if_true]
      exact List.count_erase_of_ne him (s.images topic)
    · intro t ht
      simp only [removeImageState]
      rw [if_neg ht]
    · simp only [removeImageState, eq_self_iff_true, if_true]
    · intro t ht
      simp only [removeImageState]
      rw [if_neg ht]

/-- Witness for C7: on the single-image pool at its cap, a failed
deletion leaves the state unchanged, and a successful deletion of the
only image empties the topic. -/
theorem eviction_cycle_consistency_witness :
    manageCycle singleImageState 0 0 false (some rotationDl) true = singleImageState ∧
    evictPhase singleImageState 0 0 true =
      some (removeImageState singleImageState "x" (mkImage "a" "d/x_0.jpg"), "x") ∧
    (removeImageState singleImageState "x" (mkImage "a" "d/x_0.jpg")).num_images = 0 := by
  have h := eviction_cycle_consistency singleImageState 0 0 (by decide)
  have h2 := h.2 "x" (mkImage "a" "d/x_0.jpg") (by decide) (by decide)
  exact ⟨h.1 (some rotationDl) true, h2.1, by rw [h2.2.2.2.2.2.1]; decide⟩

/-- C6: `get_random_image` returns absence without touching the state
when setup has not run, when the counted pool is empty, or when no
topic holds an image; otherwise it selects a topic that has at least
one image and an image inside it, and then: on a failed file read it
removes exactly that image (both counters dropping by exactly one,
everything else untouched) and returns absence; on a successful read
it returns the stored attribution, id, the read bytes and the topic,
leaving the state unchanged. -/
theorem get_random_image_behaviour (s : DState) (tPick iPick : Nat)
    (readF : String → Option (List Nat)) :
    (s.setup_done = false → get_random_image s tPick iPick readF = (none, s)) ∧
    (s.num_images = 0 → get_random_image s tPick iPick readF = (none, s)) ∧
    (topicsWithAnyImage s = [] → get_random_image s tPick iPick readF = (none, s)) ∧
    (∀ (rt : String) (ri : Image), s.setup_done = true → s.num_images ≠ 0 →
      listChoice (topicsWithAnyImage s) tPick = some rt →
      listChoice (s.images rt) iPick = some ri →
      (rt ∈ s.topics ∧ 0 < (s.images rt).length ∧ ri ∈ s.images rt) ∧
      (readF ri.file_path = none →
        get_random_image s tPick iPick readF = (none, removeImageState s rt ri) ∧
        ((removeImageState s rt ri).images rt).length + 1 = (s.images rt).length ∧
        ((removeImageState s rt ri).images rt).count ri + 1 = (s.images rt).count ri ∧
        (∀ t ≠ rt, (removeImageState s rt ri).images t = s.images t) ∧
        (removeImageState s rt ri).num_images = s.num_images - 1 ∧
        (removeImageState s rt ri).num_images_topic rt = s.num_images_topic rt - 1 ∧
        (∀ t ≠ rt, (removeImageState s rt ri).num_images_topic t = s.num_images_topic t) ∧
        (removeImageState s rt ri).topics = s.topics) ∧
      (∀ b, readF ri.file_path = some b →
        get_random_image s tPick iPick readF =
          (some { attribution := ri.attribution, id := ri.id,
                  image := b, topic := rt }, s))) := by
  refine ⟨?_, ?_, ?_, ?_⟩
  · intro h
    simp [get_random_image, h]
  · intro h
    simp [get_random_image, h]
  · intro h
    simp [get_random_image, h, listChoice]
  · intro rt ri hsd hnum hrt hri
    have hrtmem : rt ∈ topicsWithAnyImage s := listChoice_mem hrt
    have hrtfacts := List.mem_filter.mp hrtmem
    have hrimem : ri ∈ s.images rt := listChoice_mem hri
    have hcount : 0 < (s.images rt).count ri := List.count_pos_iff.mpr hrimem
    have hlen : 0 < (s.images rt).length := by
      rcases hrtfacts with ⟨_, h2⟩
      simpa using h2
    have hmain : get_random_image s tPick iPick readF =
        (match readF ri.file_path with
         | none => (none, removeImageState s rt ri)
         | some bytes =>
           (some { attribution := ri.attribution, id := ri.id,
                   image := bytes, topic := rt }, s)) := by
      unfold get_random_image
      simp only [hsd, hnum, hrt, hri]
      simp
    refine ⟨⟨hrtfacts.1, hlen, hrimem⟩, ?_, ?_⟩
    · intro hread
      rw [hread] at hmain
      refine ⟨hmain, ?_, ?_, ?_, rfl, ?_, ?_⟩
      · have h1 : ((s.images rt).erase ri).length = (s.images rt).length - 1 :=
          List.length_erase_of_mem hrimem
        simp only [removeImageState, eq_self_iff_true, if_true]
        rw [h1]
        omega
      · have h1 : ((s.images rt).erase ri).count ri = (s.images rt).count ri - 1 :=
          List.count_erase_self ri (s.images rt)
        simp only [removeImageState, eq_self_iff_true, if_true]
        rw [h1]
        omega
      · intro t ht
        simp only [removeImageState]
        rw [if_neg ht]
      · simp only [removeImageState, eq_self_iff_true, if_true]
      · refine ⟨?_, rfl⟩
        intro t ht
        simp only [removeImageState]
        rw [if_neg ht]
    · intro b hread
      rw [hread] at hmain
      exact hmain

/-- Witness for C6: serving from the one-image pool with every file
read failing removes the only image, emptying the counter. -/
theorem get_random_image_behaviour_witness :
    get_random_image singleImageState 0 0 (fun _ => none) =
      (none, removeImageState singleImageState "x" (mkImage "a" "d/x_0.jpg")) ∧
    (removeImageState singleImageState "x" (mkImage "a" "d/x_0.jpg")).num_images = 0 := by
  have h := (get_random_image_behaviour singleImageState 0 0 (fun _ => none)).2.2.2
    "x" (mkImage "a" "d/x_0.jpg") rfl (by decide) (by decide) (by decide)
  have h2 := h.2.1 rfl
  refine ⟨h2.1, ?_⟩
  rw [h2.2.2.2.2.1]
  decide

/-!
Preservation of the counter invariant by every pool operation.
-/

theorem InvPool_restore_some (s : DState) (d : Snapshot)
    (hk : (d.map Prod.fst).Nodup) :
    InvPool (restore_images_data_session s (some d)) := by
  have hkeys : ((d.map Prod.fst).foldl insertAbsent []) = d.map Prod.fst :=
    foldl_insertAbsent_nil hk
  refine ⟨?_, ?_, ?_⟩
  · show ((d.map Prod.fst).foldl insertAbsent []).Nodup
    rw [hkeys]
    exact hk
  · show (((d.map Prod.fst).map (fun k => (dlookup d k).length)).sum : Int) =
      ((((d.map Prod.fst).foldl insertAbsent []).map
          (fun t => (dlookup d t).length)).sum : Int)
    rw [hkeys]
  · intro t ht
    show (if t ∈ d.map Prod.fst then ((dlookup d t).length : Int) else 0) =
      ((dlookup d t).length : Int)
    have ht2 : t ∈ d.map Prod.fst := by
      have : (restore_images_data_session s (some d)).topics =
          (d.map Prod.fst).foldl insertAbsent [] := rfl
      rw [this, hkeys] at ht
      exact ht
    rw [if_pos ht2]

theorem InvPool_restore {s : DState} {loaded : Option Snapshot}
    (hinv : InvPool s) (hload : SnapKeysOk loaded) :
    InvPool (restore_images_data_session s loaded) := by
  cases loaded with
  | none => exact hinv
  | some d => exact InvPool_restore_some s d hload

theorem InvPool_remove {s : DState} {topic : String} {image : Image}
    (hinv : InvPool s) (ht : topic ∈ s.topics) (hi : image ∈ s.images topic) :
    InvPool (removeImageState s topic image) := by
  obtain ⟨hnd, hsum, hcnt⟩ := hinv
  have hlen : 0 < (s.images topic).length :=
    List.length_pos.mpr (List.ne_nil_of_mem hi)
  have herase : ((s.images topic).erase image).length = (s.images topic).length - 1 :=
    List.length_erase_of_mem hi
  have hmapeq : s.topics.map (fun u => ((removeImageState s topic image).images u).length)
      = s.topics.map (fun u => if u = topic then ((s.images topic).erase image).length
          else (s.images u).length) := by
    apply List.map_congr_left
    intro u _
    simp only [removeImageState]
    split <;> rfl
  have hupd := sum_map_update (((s.images topic).erase image).length)
      (fun t => (s.images t).length) s.topics hnd ht
  refine ⟨hnd, ?_, ?_⟩
  · show s.num_images - 1 =
      ((s.topics.map (fun t => ((removeImageState s topic image).images t).length)).sum : Int)
    rw [hmapeq, hsum]
    simp only [] at hupd
    omega
  · intro t htmem
    show (if t = topic then s.num_images_topic topic - 1 else s.num_images_topic t) =
      (((if t = topic then (s.images topic).erase image else s.images t)).length : Int)
    by_cases h : t = topic
    · subst h
      rw [if_pos rfl, if_pos rfl, herase]
      have := hcnt t htmem
      omega
    · rw [if_neg h, if_neg h]
      exact hcnt t htmem

theorem InvPool_insert {s : DState} {topic : String} (img : Image)
    (hinv : InvPool s) (ht : topic ∈ s.topics) :
    InvPool (insertImageState s topic img) := by
  obtain ⟨hnd, hsum, hcnt⟩ := hinv
  have hmapeq : s.topics.map (fun u => ((insertImageState s topic img).images u).length)
      = s.topics.map (fun u => if u = topic then (s.images topic).length + 1
          else (s.images u).length) := by
    apply List.map_congr_left
    intro u _
    simp only [insertImageState]
    split
    · simp
    · rfl
  have hupd := sum_map_update ((s.images topic).length + 1)
      (fun t => (s.images t).length) s.topics hnd ht
  refine ⟨hnd, ?_, ?_⟩
  · show s.num_images + 1 =
      ((s.topics.map (fun t => ((insertImageState s topic img).images t).length)).sum : Int)
    rw [hmapeq, hsum]
    simp only [] at hupd
    omega
  · intro t htmem
    show (if t = topic then s.num_images_topic topic + 1 else s.num_images_topic t) =
      (((if t = topic then s.images topic ++ [img] else s.images t)).length : Int)
    by_cases h : t = topic
    · subst h
      rw [if_pos rfl, if_pos rfl]
      have := hcnt t htmem
      simp only [List.length_append, List.length_singleton]
      omega
    · rw [if_neg h, if_neg h]
      exact hcnt t htmem

theorem InvPool_downloadPhase (s : DState) (topic : String) (dl : Option DlImage)
    (saveFileOk : Bool) (hinv : InvPool s) (ht : topic ∈ s.topics) :
    InvPool (downloadPhase s topic dl saveFileOk) := by
  cases dl with
  | none => exact hinv
  | some d =>
    cases saveFileOk with
    | false => exact hinv
    | true => exact InvPool_insert _ hinv ht

theorem evictPhase_inv {s : DState} {mostPick evictPick : Nat} {removeOk : Bool}
    {s1 : DState} {topic : String}
    (hinv : InvPool s)
    (h : evictPhase s mostPick evictPick removeOk = some (s1, topic)) :
    InvPool s1 ∧ topic ∈ s.topics ∧ s1.topics = s.topics := by
  unfold evictPhase at h
  cases hm : get_topic_more_num_images s mostPick with
  | none =>
    rw [hm] at h
    exact absurd h (by simp)
  | some t0 =>
    rw [hm] at h
    simp only at h
    cases hc : listChoice (s.images t0) evictPick with
    | none =>
      rw [hc] at h
      exact absurd h (by simp)
    | some img =>
      rw [hc] at h
      simp only at h
      cases removeOk with
      | false => exact absurd h (by simp)
      | true =>
        rw [if_neg (show ¬ (true = false) by decide)] at h
        simp only [Option.some_inj, Prod.mk.injEq] at h
        obtain ⟨hs1, htop⟩ := h
        subst htop
        have htmem : t0 ∈ s.topics := by
          have hcand := listChoice_mem hm
          exact (List.mem_filter.mp hcand).1
        have himem : img ∈ s.images t0 := listChoice_mem hc
        exact ⟨hs1 ▸ InvPool_remove hinv htmem himem, htmem, hs1 ▸ rfl⟩

theorem InvPool_manageCycle (s : DState) (mostPick evictPick : Nat) (removeOk : Bool)
    (dl : Option DlImage) (saveFileOk : Bool) (hinv : InvPool s) :
    InvPool (manageCycle s mostPick evictPick removeOk dl saveFileOk) := by
  unfold manageCycle
  by_cases hcap : (s.num_images : Rat) ≥ s.max_images_per_hour
  · rw [if_pos hcap]
    cases he : evictPhase s mostPick evictPick removeOk with
    | none => exact hinv
    | some pr =>
      obtain ⟨s1, topic⟩ := pr
      obtain ⟨hinv1, htmem, hteq⟩ := evictPhase_inv hinv he
      show InvPool (if topic = "" then s1 else downloadPhase s1 topic dl saveFileOk)
      by_cases htop : topic = ""
      · rw [if_pos htop]
        exact hinv1
      · rw [if_neg htop]
        exact InvPool_downloadPhase s1 topic dl saveFileOk hinv1 (hteq ▸ htmem)
  · rw [if_neg hcap]
    show InvPool (if get_topic_less_num_images s = "" then s
      else downloadPhase s (get_topic_less_num_images s) dl saveFileOk)
    by_cases htop : get_topic_less_num_images s = ""
    · rw [if_pos htop]
      exact hinv
    · rw [if_neg htop]
      have hmem : get_topic_less_num_images s ∈ s.topics := by
        rcases lessFold_fst_eq_or_mem (fun t => (s.images t).length) s.topics
          ("", s.max_images_per_hour) with h | h
        · exact absurd h htop
        · exact h
      exact InvPool_downloadPhase s (get_topic_less_num_images s) dl saveFileOk hinv hmem

theorem InvPool_serve (s : DState) (tPick iPick : Nat)
    (readF : String → Option (List Nat)) (hinv : InvPool s) :
    InvPool (get_random_image s tPick iPick readF).2 := by
  by_cases h1 : s.setup_done = false
  · simp only [get_random_image, if_pos h1]
    exact hinv
  · by_cases h2 : s.num_images = 0
    · simp only [get_random_image, if_neg h1, if_pos h2]
      exact hinv
    · cases hrt : listChoice (topicsWithAnyImage s) tPick with
      | none =>
        simp only [get_random_image, if_neg h1, if_neg h2, hrt]
        exact hinv
      | some rt =>
        cases hri : listChoice (s.images rt) iPick with
        | none =>
          simp only [get_random_image, if_neg h1, if_neg h2, hrt, hri]
          exact hinv
        | some ri =>
          cases hread : readF ri.file_path with
          | none =>
            have hrtmem : rt ∈ s.topics := (List.mem_filter.mp (listChoice_mem hrt)).1
            have hrimem : ri ∈ s.images rt := listChoice_mem hri
            simp only [get_random_image, if_neg h1, if_neg h2, hrt, hri, hread]
            exact InvPool_remove hinv hrtmem hrimem
          | some b =>
            simp only [get_random_image, if_neg h1, if_neg h2, hrt, hri, hread]
            exact hinv

theorem InvPool_setup (maxApi : Nat) (dir : String) (topics : List String)
    (maxn : Nat) (loaded : Option Snapshot)
    (hnd : topics.Nodup) (hload : SnapKeysOk loaded) :
    InvPool (setup (initialState maxApi) dir topics maxn loaded) := by
  have hs1 : InvPool
      { initialState maxApi with
        images_dir := dir
        topics := topics
        max_images_per_hour :=
          if maxn ≠ 0 ∧ (maxn : Rat) < (initialState maxApi).max_images_per_hour then
            (maxn : Rat)
          else (initialState maxApi).max_images_per_hour
        images := fun _ => []
        image_keys := topics.foldl insertAbsent []
        num_images_topic := fun t => if t ∈ topics then 0
          else (initialState maxApi).num_images_topic t } := by
    refine ⟨hnd, ?_, ?_⟩
    · show (0 : Int) = ((topics.map (fun _ => (([] : List Image)).length)).sum : Int)
      simp
    · intro t ht
      show (if t ∈ topics then (0 : Int) else 0) = ((([] : List Image)).length : Int)
      simp
  have hrest := InvPool_restore hs1 hload
  exact hrest

theorem InvPool_step {a b : DState} (h : PoolStep a b) (hinv : InvPool a) : InvPool b := by
  cases h with
  | restore loaded hload => exact InvPool_restore hinv hload
  | cycle mp ep ro dl so => exact InvPool_manageCycle a mp ep ro dl so hinv
  | serve tp ip rf => exact InvPool_serve a tp ip rf hinv

/-- C3: from any configured start (a `setup` on a fresh manager, with
any restore outcome) and along any sequence of session restores,
manage-loop cycles (insertions and evictions, with any oracle
outcomes) and `get_random_image` calls (including self-healing
purges), the derived counters never drift: `num_images` equals the
summed per-topic pool sizes and each topic entry of
`num_images_topic` equals its pool size. -/
theorem counters_never_drift (maxApi : Nat) (dir : String) (topics : List String)
    (maxn : Nat) (loaded : Option Snapshot) (s : DState)
    (hnd : topics.Nodup) (hload : SnapKeysOk loaded)
    (hreach : PoolReachable (setup (initialState maxApi) dir topics maxn loaded) s) :
    countersOk s := by
  suffices h : InvPool s from h.2
  induction hreach with
  | refl => exact InvPool_setup maxApi dir topics maxn loaded hnd hload
  | tail hab hbc ih => exact InvPool_step hbc ih

/-- Witness for C3: after configuring a fresh manager on topic x and
running one growth cycle that stores a downloaded image, the counters
match the pool. -/
theorem counters_never_drift_witness :
    countersOk (manageCycle (setup (initialState 50) "d" ["x"] 0 none)
      0 0 false (some rotationDl) true) :=
  counters_never_drift 50 "d" ["x"] 0 none _ (by decide) trivial
    (Relation.ReflTransGen.single
      (PoolStep.cycle (setup (initialState 50) "d" ["x"] 0 none) 0 0 false
        (some rotationDl) true))

end UnsplashRandDownloader
